import Mathlib

/-!
Verification of the pippin repository (per-partition state-and-history
engine).  Bytes are modelled as natural numbers below 256, byte streams as
`List Nat`.  The SHA-256 digest function and the UTF-8 validity test are
parameters of the embedding (`sha : List Nat → List Nat`,
`isUtf8 : List Nat → Bool`): the theorems hold for every choice, so nothing
depends on the internals of either.  32-byte sums compared lexicographically
are order-isomorphic to their big-endian numeric value, so `Sum` is modelled
as `Nat` in the partition engine.
-/

namespace Pippin

/-- Result type mirroring the `Result` type of the source; errors mirror the
error enum variants that the embedded code can produce. -/
inductive PipErr where
  /-- ReadError with message, byte position, and intra-block span. -/
  | readErr (msg : String) (pos : Nat) (span : Nat × Nat) : PipErr
  /-- ArgError with message. -/
  | argErr (msg : String) : PipErr
  /-- FromUtf8Error raised by a failed String conversion with no position. -/
  | utf8Err : PipErr
  /-- OtherError with message. -/
  | otherErr (msg : String) : PipErr
  /-- A Rust panic (out-of-bounds index or unwrap of None). -/
  | panicked : PipErr
deriving DecidableEq

/-- Result of a fallible operation returning a value of type alpha. -/
inductive Res (α : Type) where
  | ok (val : α) : Res α
  | err (e : PipErr) : Res α
deriving DecidableEq

/-- Result of a fallible operation with a specific error type (used for the
partition operations whose errors are not `PipErr`). -/
inductive Res' (ε α : Type) where
  | ok (val : α) : Res' ε α
  | err (e : ε) : Res' ε α
deriving DecidableEq

/-- File type and version, from `header.rs` (`FileType`). -/
inductive FileTypeM where
  | snapshot (ver : Nat) : FileTypeM
  | commitLog (ver : Nat) : FileTypeM
deriving DecidableEq

/-- Information stored in a file header, from `header.rs` (`FileHeader`).
Strings are carried as UTF-8 byte lists. -/
structure FileHeaderM where
  ftype : FileTypeM
  name : List Nat
  part_id : Option Nat
  remarks : List (List Nat)
  user_fields : List (List Nat)
deriving DecidableEq

/-- Modelled from the spec: `util::rtrim` (not under src/) removes every
trailing occurrence of the given byte, as used by `read_head` on
NUL-padded fields. -/
def rtrim (v : List Nat) (t : Nat) : List Nat :=
  ((v.reverse.dropWhile (fun c => c = t)).reverse)

/-- List of n zero bytes (the `pad` helper of `write_head`). -/
def zeros (n : Nat) : List Nat := List.replicate n 0

/-- Constant `HEAD_SNAPSHOT = b"PIPPINSS20160201"`. -/
def HEAD_SNAPSHOT : List Nat :=
  [80, 73, 80, 80, 73, 78, 83, 83, 50, 48, 49, 54, 48, 50, 48, 49]

/-- Constant `HEAD_COMMITLOG = b"PIPPINCL20160201"`. -/
def HEAD_COMMITLOG : List Nat :=
  [80, 73, 80, 80, 73, 78, 67, 76, 50, 48, 49, 54, 48, 50, 48, 49]

/-- Constant `HEAD_VERSIONS`: all accepted format versions. -/
def HEAD_VERSIONS : List Nat := [20150929, 20160105, 20160201]

/-- Constant `SUM_SHA256 = b"HSUM SHA-2 256\x00\x00"`. -/
def SUM_SHA256 : List Nat :=
  [72, 83, 85, 77, 32, 83, 72, 65, 45, 50, 32, 50, 53, 54, 0, 0]

/-- Constant `PARTID = b"HPARTID "`. -/
def PARTID : List Nat := [72, 80, 65, 82, 84, 73, 68, 32]

/-- Function `read_head_version`: decode 8 ASCII digits to an integer,
returning zero on any non-digit (the source returns 0 at the first bad
byte; folding with an Option accumulator yields the same value). -/
def readHeadVersion (s : List Nat) : Nat :=
  (s.foldl (fun acc c =>
    match acc with
    | none => none
    | some v => if 48 ≤ c ∧ c ≤ 57 then some (10 * v + (c - 48)) else none)
    (some 0)).getD 0

/-- Function `validate_repo_name`. -/
def validateRepoName (name : List Nat) : Res Unit :=
  if name.length = 0 then .err (.argErr "repo name missing (length 0)")
  else if 16 < name.length then .err (.argErr "repo name too long")
  else .ok ()

/-- Modelled from the spec: `readwrite::fill` (not under src/; the older
copy in `detail/mod.rs` is) reads exactly n bytes, failing with a
ReadError when the stream ends early. -/
def fill (n : Nat) (pos : Nat) (input : List Nat) :
    Res (List Nat × List Nat) :=
  if n ≤ input.length then .ok (input.take n, input.drop n)
  else .err (.readErr "corrupt (file terminates unexpectedly)" pos (0, 0))

/-- Block 0 of `read_head` (`header.rs` lines 93-104): version check on
bytes 8..16, then the magic on bytes 0..8. -/
def parseBlock0 (buf : List Nat) (pos : Nat) : Res FileTypeM :=
  let headVersion := readHeadVersion ((buf.drop 8).take 8)
  if headVersion ∉ HEAD_VERSIONS then
    .err (.readErr "Pippin file of unknown version" pos (0, 16))
  else if buf.take 8 = HEAD_SNAPSHOT.take 8 then
    .ok (.snapshot headVersion)
  else if buf.take 8 = HEAD_COMMITLOG.take 8 then
    .ok (.commitLog headVersion)
  else
    .err (.readErr "not a known Pippin file format" pos (0, 16))

/-- One dispatch step of the `read_head` block loop on an extracted block
(`header.rs` lines 142-171).  Returns `none` when the block is the `SUM`
terminator, otherwise the updated header. -/
def dispatchBlock (isUtf8 : List Nat → Bool) (block : List Nat) (off : Nat)
    (pos : Nat) (h : FileHeaderM) : Res (Option FileHeaderM) :=
  if block.take 3 = [83, 85, 77] then
    -- "SUM": only SHA-256 is accepted; it terminates the header blocks
    if rtrim (block.drop 3) 0 = [32, 83, 72, 65, 45, 50, 32, 50, 53, 54] then
      .ok none
    else
      .err (.readErr "unknown checksum format" pos (3 + off, 13 + off))
  else if block.take 7 = PARTID.drop 1 then
    let id := ((block.drop 7).take 8).foldl (fun a c => 256 * a + c) 0
    if h.part_id ≠ none then
      .err (.readErr "repeat of PARTID" pos (off, off + 6))
    else
      .ok (some { h with part_id := some id })
  else if block.headD 0 = 82 then
    -- 'R': user remark, must be valid UTF-8
    if isUtf8 (rtrim block 0) then
      .ok (some { h with remarks := h.remarks ++ [rtrim block 0] })
    else
      .err .utf8Err
  else if block.headD 0 = 85 then
    -- 'U': opaque user bytes
    .ok (some { h with user_fields := h.user_fields ++ [rtrim (block.drop 1) 0] })
  else
    -- 'O' blocks, other uppercase blocks (warned) and all remaining blocks
    -- are skipped
    .ok (some h)

/-- One iteration of the block loop of `read_head` (`header.rs` lines
122-173); `go` continues the loop on the remaining stream.  Takes the
input stream, the `pos` counter, the count of bytes consumed so far and
the header under construction; returns the completed header, the final
`pos`, the total consumed count and the remaining stream. -/
def parseBlocksStep (isUtf8 : List Nat → Bool)
    (go : List Nat → Nat → Nat → FileHeaderM →
      Res (FileHeaderM × Nat × Nat × List Nat))
    (input : List Nat) (pos consumed : Nat) (h : FileHeaderM) :
    Res (FileHeaderM × Nat × Nat × List Nat) :=
  match fill 16 pos input with
  | .err e => .err e
  | .ok (buf, rest) =>
    if buf.headD 0 = 72 then
      -- 'H': single block, 15 payload bytes
      let block := (buf.drop 1).take 15
      match dispatchBlock isUtf8 block 1 (pos + 1) h with
      | .err e => .err e
      | .ok none => .ok (h, pos + 1, consumed + 16, rest)
      | .ok (some h2) =>
        go rest (pos + 1 + block.length) (consumed + 16) h2
    else if buf.headD 0 = 81 then
      -- 'Q': x*16-byte section, length nibble in the second byte
      let c1 := (buf.drop 1).headD 0
      if (49 ≤ c1 ∧ c1 ≤ 57) ∨ (65 ≤ c1 ∧ c1 ≤ 90) then
        let x := if 49 ≤ c1 ∧ c1 ≤ 57 then c1 - 48 else c1 + 10 - 65
        match fill (x * 16 - 16) pos rest with
        | .err e => .err e
        | .ok (ext, rest2) =>
          let block := ((buf ++ ext).drop 2).take (x * 16 - 2)
          match dispatchBlock isUtf8 block 2 (pos + 2) h with
          | .err e => .err e
          | .ok none => .ok (h, pos + 2, consumed + x * 16, rest2)
          | .ok (some h2) =>
            go rest2 (pos + 2 + block.length) (consumed + x * 16) h2
      else
        .err (.readErr "header section Qx... has invalid length specification x" pos (0, 2))
    else
      .err (.readErr "unexpected header contents" pos (0, 1))

/-- The block loop of `read_head`, with fuel for termination.  One unit of
fuel is spent per block, and every block consumes at least 16 bytes, so
fuel `input.length + 1` never runs out. -/
def parseBlocks (isUtf8 : List Nat → Bool) : Nat → List Nat → Nat → Nat →
    FileHeaderM → Res (FileHeaderM × Nat × Nat × List Nat)
  | 0, _, pos, _, _ =>
    .err (.readErr "corrupt (file terminates unexpectedly)" pos (0, 0))
  | fuel + 1, input, pos, consumed, h =>
    parseBlocksStep isUtf8 (parseBlocks isUtf8 fuel) input pos consumed h

/-- Parse phase of `read_head`: block 0 (magic and version), the repo-name
block, then the block loop up to the `SUM` terminator.  Returns the header,
the final position counter, and the remaining stream after the consumed
prefix. -/
def parseHead (isUtf8 : List Nat → Bool) (input : List Nat) :
    Res (FileHeaderM × Nat × Nat × List Nat) :=
  match fill 16 0 input with
  | .err e => .err e
  | .ok (buf0, rest0) =>
    match parseBlock0 buf0 0 with
    | .err e => .err e
    | .ok ftype =>
      match fill 16 16 rest0 with
      | .err e => .err e
      | .ok (buf1, rest1) =>
        if isUtf8 (rtrim buf1 0) then
          let header : FileHeaderM :=
            { ftype := ftype, name := rtrim buf1 0, part_id := none,
              remarks := [], user_fields := [] }
          parseBlocks isUtf8 (input.length + 1) rest1 32 32 header
        else
          .err (.readErr "repo name not valid UTF-8" 16 (0, 16))

/-- Function `read_head` (`header.rs` lines 86-186): parse the header blocks,
then read the trailing 32 bytes and compare them with the digest of every
consumed byte. -/
def readHead (sha : List Nat → List Nat) (isUtf8 : List Nat → Bool)
    (input : List Nat) : Res FileHeaderM :=
  match parseHead isUtf8 input with
  | .err e => .err e
  | .ok (h, pos, consumed, rest) =>
    match fill 32 pos rest with
    | .err e => .err e
    | .ok (buf32, _) =>
      if buf32 = sha (input.take consumed) then .ok h
      else .err (.readErr "header checksum invalid" pos (0, 32))

/-- Encoding of one remark by `write_head` (`header.rs` lines 214-232),
including the miscomputed padding `n*16 - len + 2` of the Q branch.  An
empty remark panics in the source (index 0 out of bounds). -/
def encodeRemark (b : List Nat) : Res (List Nat) :=
  match b with
  | [] => .err .panicked
  | c :: _ =>
    if c ≠ 82 then .err (.argErr "remark does not start R")
    else if b.length ≤ 15 then
      .ok ([72] ++ b ++ zeros (15 - b.length))
    else if b.length ≤ 16 * 36 - 2 then
      let n := (b.length + 2 + 15) / 16
      let lc := if n ≤ 9 then 48 + n else 65 - 10 + n
      .ok ([81, lc] ++ b ++ zeros (n * 16 - b.length + 2))
    else .err (.argErr "remark too long")

/-- Encoding of one user field by `write_head` (`header.rs` lines 234-249). -/
def encodeUserField (uf : List Nat) : Res (List Nat) :=
  if uf.length ≤ 14 then
    .ok ([72, 85] ++ uf ++ zeros (14 - uf.length))
  else if uf.length ≤ 16 * 36 - 3 then
    let n := (uf.length + 3 + 15) / 16
    let lc := if n ≤ 9 then 48 + n else 65 - 10 + n
    .ok ([81, lc, 85] ++ uf ++ zeros (n * 16 - uf.length - 3))
  else .err (.argErr "user field too long")

/-- Fold a list of encodings in the result monad, concatenating outputs. -/
def encodeAll (f : List Nat → Res (List Nat)) : List (List Nat) → Res (List Nat)
  | [] => .ok []
  | b :: bs =>
    match f b with
    | .err e => .err e
    | .ok enc =>
      match encodeAll f bs with
      | .err e => .err e
      | .ok rest => .ok (enc ++ rest)

/-- Big-endian encoding of a u64 (the `byteorder` call of `write_head`). -/
def toBE8 (v : Nat) : List Nat :=
  [v / 2 ^ 56 % 256, v / 2 ^ 48 % 256, v / 2 ^ 40 % 256, v / 2 ^ 32 % 256,
   v / 2 ^ 24 % 256, v / 2 ^ 16 % 256, v / 2 ^ 8 % 256, v % 256]

/-- Function `write_head` (`header.rs` lines 189-273): magic with the newest
version, the NUL-padded name, the optional PARTID block, the remark and
user-field blocks, the SUM terminator, then the SHA-256 of everything
written. -/
def writeHead (sha : List Nat → List Nat) (h : FileHeaderM) :
    Res (List Nat) :=
  let magic := match h.ftype with
    | .snapshot _ => HEAD_SNAPSHOT
    | .commitLog _ => HEAD_COMMITLOG
  match validateRepoName h.name with
  | .err e => .err e
  | .ok _ =>
    let pidBytes := match h.part_id with
      | some id => PARTID ++ toBE8 id
      | none => []
    match encodeAll encodeRemark h.remarks with
    | .err e => .err e
    | .ok remBytes =>
      match encodeAll encodeUserField h.user_fields with
      | .err e => .err e
      | .ok ufBytes =>
        let body := magic ++ h.name ++ zeros (16 - h.name.length) ++
          pidBytes ++ remBytes ++ ufBytes ++ SUM_SHA256
        .ok (body ++ sha body)

/-! Partition engine (`part.rs`).  A `Sum` is modelled as a natural number
(32-byte arrays under lexicographic order are order-isomorphic to their
big-endian value).  `PartState` is abstracted to the fields the engine
inspects: its statesum, its parent sums, and an opaque payload standing for
the element map, moved map and metadata (used only by value equality in
`add_pair`).  Hash sets are modelled as duplicate-free lists. -/

/-- Abstraction of `PartState`: statesum, parent sums, opaque content. -/
structure PState where
  statesum : Nat
  parents : List Nat
  payload : Nat
deriving DecidableEq

/-- The fields of `Partition` the claims are about: `states` (keyed by
statesum), `ancestors`, `tips` and the `unsaved` queue (as commit sums). -/
structure Part where
  states : List PState
  ancestors : List Nat
  tips : List Nat
  unsaved : List Nat
deriving DecidableEq

/-- Insertion into a hash set modelled as a list: no-op when present. -/
def setInsert (x : Nat) (l : List Nat) : List Nat :=
  if x ∈ l then l else x :: l

/-- Keys of the `states` index (`HashIndexed` is keyed by statesum). -/
def keySet (p : Part) : List Nat := p.states.map (fun s => s.statesum)

/-- Lookup `states.get(k)` (first entry with the given statesum). -/
def statesFind (states : List PState) (k : Nat) : Option PState :=
  states.find? (fun s => s.statesum = k)

/-- Error type of `tip()` and `tip_key()`. -/
inductive TipErr where
  | notReady : TipErr
  | mergeRequired : TipErr
deriving DecidableEq

/-- Function `tip_key` (`part.rs` lines 411-419): the unique tip sum, or
`NotReady` when there is no tip, or `MergeRequired` when there are many. -/
def tipKey (p : Part) : Res' TipErr Nat :=
  if p.tips.length = 1 then .ok (p.tips.headD 0)
  else if p.tips.isEmpty then .err .notReady
  else .err .mergeRequired

/-- Function `tip` (`part.rs` lines 406-408): look up the tip-key state.
The source unwraps the lookup; `none` models that panic. -/
def tip (p : Part) : Res' TipErr (Option PState) :=
  match tipKey p with
  | .err e => .err e
  | .ok k => .ok (statesFind p.states k)

/-- Function `unload` (`part.rs` lines 377-387): clear `states`, `ancestors`
and `tips` when forced or when nothing is unsaved; otherwise do nothing.
Returns the new partition and the reported boolean. -/
def unload (force : Bool) (p : Part) : Part × Bool :=
  if force || p.unsaved.isEmpty then
    ({ p with states := [], ancestors := [], tips := [] }, true)
  else (p, false)

/-- Function `add_state` (`part.rs` lines 803-826): skip when the sum is
known; otherwise remove each parent from `tips`, add parents missing from
`states` to `ancestors`, make the new state a tip unless its sum is an
ancestor, and index the state. -/
def addState (p : Part) (s : PState) : Part :=
  if s.statesum ∈ keySet p then p
  else
    let tips1 := s.parents.foldl (fun t q => t.filter (fun y => y ≠ q)) p.tips
    let anc1 := s.parents.foldl
      (fun a q => if q ∈ keySet p then a else setInsert q a) p.ancestors
    let tips2 := if s.statesum ∈ anc1 then tips1 else setInsert s.statesum tips1
    { p with states := s :: p.states, ancestors := anc1, tips := tips2 }

/-- The snapshot-insertion step of `load_range` (`part.rs` lines 259-268):
make the loaded state a tip unless it is a known ancestor, add its parents
missing from `states` to `ancestors`, and index it (`HashIndexed.insert`
keeps an existing entry with the same key). -/
def loadInsert (p : Part) (s : PState) : Part :=
  let tips1 := if s.statesum ∈ p.ancestors then p.tips
    else setInsert s.statesum p.tips
  let anc1 := s.parents.foldl
    (fun a q => if q ∈ keySet p then a else setInsert q a) p.ancestors
  let states1 := if s.statesum ∈ keySet p then p.states else s :: p.states
  { p with states := states1, ancestors := anc1, tips := tips1 }

/-- The state seeding of `create` (`part.rs` lines 84-106).  Modelled from
the spec: `PartState::new` (state.rs is not under src/) produces a genesis
state with empty parents. -/
def createPart (genesisSum : Nat) (payload : Nat) : Part :=
  { states := [⟨genesisSum, [], payload⟩], ancestors := [],
    tips := [genesisSum], unsaved := [] }

/-- Function `add_pair` (`part.rs` lines 851-870): while a state with the
same sum is stored, stop if it is equal, otherwise mutate the metadata of
the new state; then delegate to `add_state` and queue the commit.  The
mutation is an opaque parameter and the loop is fuel-indexed (the source
loop has no termination guarantee). -/
def addPair (mutate : PState → PState) (commitSum : Nat) :
    Nat → Part → PState → Part × Bool
  | 0, p, _ => (p, false)
  | fuel + 1, p, s =>
    match statesFind p.states s.statesum with
    | some old =>
      if s = old then (p, false)
      else addPair mutate commitSum fuel p (mutate s)
    | none => ({ addState p s with unsaved := p.unsaved ++ [commitSum] }, true)

/-- The tip-pair selection of `merge` (`part.rs` lines 521-525): collect the
tips, sort them, and take the first two. -/
def mergePickPair (tips : List Nat) : Nat × Nat :=
  match tips.insertionSort (fun a b => a ≤ b) with
  | t1 :: t2 :: _ => (t1, t2)
  | _ => (0, 0)

/-! Latest common ancestor (`part.rs` lines 753-789).  Both phases use a
`VecDeque` with `push_back`/`pop_back`, i.e. a LIFO stack.  The stack is a
list whose head is the top; pushing the parents `p1, ..., pn` with
`push_back` leaves `pn` on top, hence `parents.reverse ++ stack`.  The loops
are fuel-indexed; `dfsVisitFuel` below is enough fuel to finish. -/

/-- Parents of a sum as the engine sees them: the parent list of the indexed
state, or nothing for an unknown sum. -/
def parentsOf (states : List PState) (k : Nat) : List Nat :=
  match statesFind states k with
  | some s => s.parents
  | none => []

/-- The first loop of `latest_common_ancestor`: explore every sum reachable
from the stack through parent edges, accumulating the visited set `a1`. -/
def dfsAll (states : List PState) : Nat → List Nat → List Nat → List Nat
  | 0, _, vis => vis
  | _ + 1, [], vis => vis
  | fuel + 1, k :: stk, vis =>
    if k ∈ vis then dfsAll states fuel stk vis
    else dfsAll states fuel ((parentsOf states k).reverse ++ stk) (k :: vis)

/-- The second loop of `latest_common_ancestor`: explore from the stack,
returning the first visited sum that lies in `a1`. -/
def dfsFind (states : List PState) (a1 : List Nat) :
    Nat → List Nat → List Nat → Option Nat
  | 0, _, _ => none
  | _ + 1, [], _ => none
  | fuel + 1, k :: stk, vis =>
    if k ∈ vis then dfsFind states a1 fuel stk vis
    else if k ∈ a1 then some k
    else dfsFind states a1 fuel ((parentsOf states k).reverse ++ stk) (k :: vis)

/-- Sums visited by the stack traversal, in visit order. -/
def dfsVisit (states : List PState) : Nat → List Nat → List Nat → List Nat
  | 0, _, _ => []
  | _ + 1, [], _ => []
  | fuel + 1, k :: stk, vis =>
    if k ∈ vis then dfsVisit states fuel stk vis
    else k :: dfsVisit states fuel ((parentsOf states k).reverse ++ stk) (k :: vis)

/-- Weight of the states not yet visited; together with the stack length it
bounds the number of remaining loop iterations. -/
def unvisitedWeight (states : List PState) (vis : List Nat) : Nat :=
  ((states.filter (fun s => s.statesum ∉ vis)).map
    (fun s => 1 + s.parents.length)).sum

/-- Fuel sufficient for either traversal started on a one-element stack. -/
def dfsVisitFuel (states : List PState) : Nat :=
  2 + unvisitedWeight states []

/-- Error type of merge operations. -/
inductive MergeErr where
  | noCommonAncestor : MergeErr
  | noState : MergeErr
  | notSolved : MergeErr
deriving DecidableEq

/-- Function `latest_common_ancestor` (`part.rs` lines 753-789): collect all
sums reachable from `k1`, then search from `k2` with the same stack
discipline, returning the first visited sum in that set. -/
def latestCommonAncestor (states : List PState) (k1 k2 : Nat) :
    Res' MergeErr Nat :=
  let a1 := dfsAll states (dfsVisitFuel states) [k1] []
  match dfsFind states a1 (dfsVisitFuel states) [k2] [] with
  | some k => .ok k
  | none => .err .noCommonAncestor

/-- Breadth-first search from the queue through parent edges, returning the
first visited sum in `a1`.  This is the claim-side traversal (the claim
says `latest_common_ancestor` searches breadth-first from `k2`): a FIFO
queue popped at the head, parents appended at the tail in order. -/
def bfsFind (states : List PState) (a1 : List Nat) :
    Nat → List Nat → List Nat → Option Nat
  | 0, _, _ => none
  | _ + 1, [], _ => none
  | fuel + 1, k :: queue, vis =>
    if k ∈ vis then bfsFind states a1 fuel queue vis
    else if k ∈ a1 then some k
    else bfsFind states a1 fuel (queue ++ parentsOf states k) (k :: vis)

/-- Claim-side version of `latest_common_ancestor`: ancestor set of `k1`,
then a breadth-first search from `k2` (following the claim wording, not the
source). -/
def lcaClaimed (states : List PState) (k1 k2 : Nat) : Res' MergeErr Nat :=
  let a1 := dfsAll states (dfsVisitFuel states) [k1] []
  match bfsFind states a1 (dfsVisitFuel states) [k2] [] with
  | some k => .ok k
  | none => .err .noCommonAncestor

/-- Reachability along parent edges: `Reach states a b` holds when `b` is
`a` itself or an iterated parent of `a`. -/
def Reach (states : List PState) : Nat → Nat → Prop :=
  Relation.ReflTransGen (fun a b => b ∈ parentsOf states a)

/-! Partition opening (`part.rs` lines 129-181), with `read_data = false` so
that only headers are read.  The backend is modelled as the list of
snapshot files indexed by snapshot number: `none` is a missing file. -/

/-- The descending scan of `open` over the reversed file list: a missing
snapshot is skipped with a warning; a present snapshot has its header read,
and a header error propagates (the `?` operator). -/
def openScan (sha : List Nat → List Nat) (isUtf8 : List Nat → Bool) :
    List (Option (List Nat)) → Res (List Nat)
  | [] => .err (.otherErr "no snapshot found for first partition")
  | none :: rest => openScan sha isUtf8 rest
  | some bytes :: _ =>
    match readHead sha isUtf8 bytes with
    | .err e => .err e
    | .ok h => .ok h.name

/-- Function `open` with `read_data = false`: scan snapshot numbers in
descending order; the result is the repo name of the partition built from
the first snapshot used. -/
def openPart (sha : List Nat → List Nat) (isUtf8 : List Nat → Bool)
    (files : List (Option (List Nat))) : Res (List Nat) :=
  openScan sha isUtf8 files.reverse

/-- Claim-side version of `open`: also skip a present snapshot whose header
fails to parse (following the claim wording, not the source). -/
def openClaimedScan (sha : List Nat → List Nat) (isUtf8 : List Nat → Bool) :
    List (Option (List Nat)) → Res (List Nat)
  | [] => .err (.otherErr "no snapshot found for first partition")
  | none :: rest => openClaimedScan sha isUtf8 rest
  | some bytes :: rest =>
    match readHead sha isUtf8 bytes with
    | .err _ => openClaimedScan sha isUtf8 rest
    | .ok h => .ok h.name

/-- Claim-side `open`: descending scan that skips both missing and
unparsable snapshots. -/
def openClaimed (sha : List Nat → List Nat) (isUtf8 : List Nat → Bool)
    (files : List (Option (List Nat))) : Res (List Nat) :=
  openClaimedScan sha isUtf8 files.reverse

/-! The `Repo` interface of `lib.rs`.  Its element map is modelled as an
association list from u64 ids to elements (byte vectors). -/

/-- Element data held by the `Repo` of `lib.rs`. -/
structure ElementM where
  data : List Nat
deriving DecidableEq

/-- A `Repo` (`lib.rs` lines 46-50): name and element map. -/
structure RepoM where
  name : List Nat
  elements : List (Nat × ElementM)
deriving DecidableEq

/-- Lookup in the element map (`HashMap::get`). -/
def repoGet (r : RepoM) (id : Nat) : Option ElementM :=
  (r.elements.find? (fun kv => kv.1 = id)).map (fun kv => kv.2)

/-- Function `Repo::has_elt` (`lib.rs` lines 123-125). -/
def hasElt (r : RepoM) (id : Nat) : Bool :=
  r.elements.any (fun kv => kv.1 = id)

/-- Function `Repo::get_item` (`lib.rs` lines 149-151): unwraps the lookup;
`none` models the panic on a missing id. -/
def getItem (r : RepoM) (id : Nat) : Option ElementM :=
  repoGet r id

/-- Fixed digest function for concrete evaluations: the theorems about the
codec are parametric in the digest, so any instance exercises them. -/
def shaZ : List Nat → List Nat := fun _ => List.replicate 32 0

/-- Fixed UTF-8 oracle for concrete evaluations (the concrete names and
remarks used below are ASCII, hence valid UTF-8). -/
def utf8All : List Nat → Bool := fun _ => true

/-- A header with a 16-byte remark (name "n", remark "R234567890123456"),
valid for `write_head`: the name is 1 byte of UTF-8, the remark starts
with R and is far below the writer's 574-byte limit, and there are no
trailing NUL bytes anywhere. -/
def longRemarkHeader : FileHeaderM :=
  { ftype := .snapshot 0, name := [110], part_id := none,
    remarks := [[82, 50, 51, 52, 53, 54, 55, 56, 57, 48, 49, 50, 51, 52, 53, 54]],
    user_fields := [] }

/-- The bytes `write_head` produces for `longRemarkHeader`. -/
def longRemarkBytes : List Nat :=
  match writeHead shaZ longRemarkHeader with
  | .ok b => b
  | .err _ => []

/-- A minimal valid header (name "n", nothing else). -/
def minHeader : FileHeaderM :=
  { ftype := .snapshot 0, name := [110], part_id := none,
    remarks := [], user_fields := [] }

/-- The bytes `write_head` produces for `minHeader` (under `shaZ`). -/
def minHeaderBytes : List Nat :=
  match writeHead shaZ minHeader with
  | .ok b => b
  | .err _ => []

/-- First invariant of the claim: the tip set and the ancestor set are
disjoint. -/
def InvTipsAnc (p : Part) : Prop := ∀ x ∈ p.tips, x ∉ p.ancestors

/-- Second invariant of the claim: every parent sum of every stored state
is a stored state or an ancestor. -/
def InvParentClosure (p : Part) : Prop :=
  ∀ s ∈ p.states, ∀ q ∈ s.parents, q ∈ keySet p ∨ q ∈ p.ancestors

/-- Auxiliary strengthening needed for induction: every tip is the sum of a
stored state (tips are only ever inserted together with their state). -/
def InvTipsKeys (p : Part) : Prop := ∀ x ∈ p.tips, x ∈ keySet p

/-- The inductive invariant: both claimed parts plus the strengthening. -/
def PartInv (p : Part) : Prop := InvTipsAnc p ∧ InvParentClosure p ∧ InvTipsKeys p

/-- Weight contributed by the state found for a sum (used by the traversal
measure). -/
def foundWeight (states : List PState) (k : Nat) : Nat :=
  match statesFind states k with
  | some s => 1 + s.parents.length
  | none => 0

/-! Theorems. -/

/-- C10: at the `Repo` interface of `lib.rs`, `get_item` on an id missing
from the element map unwraps a `None` lookup (a panic, modelled as `none`)
while `has_elt` returns `false` for the same id; on a present id,
`get_item` returns a stored element and `has_elt` returns `true`, and
`get_item` succeeds only on present ids. -/
theorem repo_get_item_panics_iff_absent (r : RepoM) (id : Nat) :
    ((∀ e, (id, e) ∉ r.elements) → getItem r id = none ∧ hasElt r id = false) ∧
    (∀ e, getItem r id = some e → (id, e) ∈ r.elements ∧ hasElt r id = true) ∧
    (hasElt r id = true → ∃ e, getItem r id = some e) := by
  refine ⟨fun habs => ?_, fun e hge => ?_, fun hhe => ?_⟩
  · have hf : r.elements.find? (fun kv => kv.1 = id) = none := by
      rw [List.find?_eq_none]
      intro kv hkv hdec
      have h1 : kv.1 = id := by simpa using hdec
      exact habs kv.2 (by simpa [← h1] using hkv)
    constructor
    · simp [getItem, repoGet, hf]
    · simp only [hasElt, List.any_eq_false]
      intro kv hkv hdec
      have h1 : kv.1 = id := by simpa using hdec
      exact habs kv.2 (by simpa [← h1] using hkv)
  · simp only [getItem, repoGet, Option.map_eq_some'] at hge
    obtain ⟨kv, hfind, hsnd⟩ := hge
    have hmem : kv ∈ r.elements := List.mem_of_find?_eq_some hfind
    have hfst : kv.1 = id := by simpa using List.find?_some hfind
    refine ⟨by simpa [← hfst, ← hsnd] using hmem, ?_⟩
    simp only [hasElt, List.any_eq_true]
    exact ⟨kv, hmem, by simpa using hfst⟩
  · simp only [hasElt, List.any_eq_true] at hhe
    obtain ⟨kv, hkv, hdec⟩ := hhe
    have hsome : (r.elements.find? (fun kv => kv.1 = id)).isSome := by
      rw [List.find?_isSome]
      exact ⟨kv, hkv, hdec⟩
    obtain ⟨kv2, hkv2⟩ := Option.isSome_iff_exists.mp hsome
    exact ⟨kv2.2, by simp [getItem, repoGet, hkv2]⟩

/-- Witness for C10 at a concrete repo. -/
theorem repo_get_item_panics_iff_absent_witness :
    getItem ⟨[110], [(3, ⟨[7]⟩)]⟩ 5 = none ∧
      hasElt ⟨[110], [(3, ⟨[7]⟩)]⟩ 5 = false :=
  (repo_get_item_panics_iff_absent ⟨[110], [(3, ⟨[7]⟩)]⟩ 5).1
    (by intro e he; simp at he)

/-- C9: `unload(force)` clears `states`, `ancestors` and `tips` and returns
true exactly when forced or when the `unsaved` queue is empty; otherwise it
returns false and leaves the partition (including `unsaved`) unchanged.
The `unsaved` queue is never cleared by `unload`. -/
theorem unload_clears_iff_forced_or_saved (p : Part) (force : Bool) :
    ((unload force p).2 = true ↔ (force = true ∨ p.unsaved = [])) ∧
    ((unload force p).2 = true → (unload force p).1 =
      { states := [], ancestors := [], tips := [], unsaved := p.unsaved }) ∧
    ((unload force p).2 = false → (unload force p).1 = p) := by
  by_cases hc : (force || p.unsaved.isEmpty) = true
  · refine ⟨?_, fun _ => ?_, fun hf => ?_⟩
    · simp only [unload]
      rw [if_pos hc]
      simp only [Bool.or_eq_true, List.isEmpty_iff] at hc
      simpa using hc
    · simp only [unload]
      rw [if_pos hc]
    · simp only [unload] at hf
      rw [if_pos hc] at hf
      simp at hf
  · refine ⟨?_, fun ht => ?_, fun _ => ?_⟩
    · simp only [unload]
      rw [if_neg hc]
      simp only [Bool.or_eq_true, List.isEmpty_iff] at hc
      simpa using hc
    · simp only [unload] at ht
      rw [if_neg hc] at ht
      simp at ht
    · simp only [unload]
      rw [if_neg hc]

/-- Witness for C9 at a concrete partition with unsaved commits. -/
theorem unload_clears_iff_forced_or_saved_witness :
    (unload false ⟨[], [], [], [9]⟩).1 = ⟨[], [], [], [9]⟩ :=
  (unload_clears_iff_forced_or_saved ⟨[], [], [], [9]⟩ false).2.2 (by decide)

/-- Every byte list produced by `write_head` starts with one of the two
16-byte magic blocks of the newest format version. -/
theorem writeHead_ok_shape (sha : List Nat → List Nat) (h : FileHeaderM)
    (bytes : List Nat) (hw : writeHead sha h = .ok bytes) :
    ∃ rest, bytes = HEAD_SNAPSHOT ++ rest ∨ bytes = HEAD_COMMITLOG ++ rest := by
  simp only [writeHead] at hw
  cases hval : validateRepoName h.name with
  | err e => rw [hval] at hw; exact absurd hw (by simp)
  | ok u =>
    rw [hval] at hw
    simp only at hw
    cases hrem : encodeAll encodeRemark h.remarks with
    | err e => rw [hrem] at hw; exact absurd hw (by simp)
    | ok remBytes =>
      rw [hrem] at hw
      simp only at hw
      cases huf : encodeAll encodeUserField h.user_fields with
      | err e => rw [huf] at hw; exact absurd hw (by simp)
      | ok ufBytes =>
        rw [huf] at hw
        simp only [Res.ok.injEq] at hw
        cases hft : h.ftype with
        | snapshot v =>
          rw [hft] at hw
          simp only [List.append_assoc] at hw
          exact ⟨_, Or.inl hw.symm⟩
        | commitLog v =>
          rw [hft] at hw
          simp only [List.append_assoc] at hw
          exact ⟨_, Or.inr hw.symm⟩

/-- C3: `parseBlock0` (the block-0 handling of `read_head`) accepts exactly
the format versions 20150929, 20160105 and 20160201, failing with a
`ReadError` on any other decoded version field; `read_head` propagates
that error; and a header written by `write_head` always begins with the
newest magic block (version digits 20160201) whatever version its `ftype`
carries. -/
theorem head_versions_accepted_and_emitted :
    (∀ v : Nat, v ∈ HEAD_VERSIONS ↔
      (v = 20150929 ∨ v = 20160105 ∨ v = 20160201)) ∧
    (∀ buf pos, readHeadVersion ((buf.drop 8).take 8) ∉ HEAD_VERSIONS →
      parseBlock0 buf pos =
        .err (.readErr "Pippin file of unknown version" pos (0, 16))) ∧
    (∀ buf pos ft, parseBlock0 buf pos = .ok ft →
      readHeadVersion ((buf.drop 8).take 8) ∈ HEAD_VERSIONS ∧
      (ft = .snapshot (readHeadVersion ((buf.drop 8).take 8)) ∨
       ft = .commitLog (readHeadVersion ((buf.drop 8).take 8)))) ∧
    (∀ buf pos, readHeadVersion ((buf.drop 8).take 8) ∈ HEAD_VERSIONS →
      (buf.take 8 = HEAD_SNAPSHOT.take 8 →
        parseBlock0 buf pos =
          .ok (.snapshot (readHeadVersion ((buf.drop 8).take 8)))) ∧
      (buf.take 8 ≠ HEAD_SNAPSHOT.take 8 →
        buf.take 8 = HEAD_COMMITLOG.take 8 →
        parseBlock0 buf pos =
          .ok (.commitLog (readHeadVersion ((buf.drop 8).take 8))))) ∧
    (∀ sha isUtf8 input, 16 ≤ List.length input →
      readHeadVersion ((input.drop 8).take 8) ∉ HEAD_VERSIONS →
      readHead sha isUtf8 input =
        .err (.readErr "Pippin file of unknown version" 0 (0, 16))) ∧
    (∀ sha h bytes, writeHead sha h = .ok bytes →
      bytes.take 16 = HEAD_SNAPSHOT ∨ bytes.take 16 = HEAD_COMMITLOG) ∧
    (HEAD_SNAPSHOT.drop 8 = HEAD_COMMITLOG.drop 8 ∧
      readHeadVersion (HEAD_SNAPSHOT.drop 8) = 20160201) := by
  refine ⟨fun v => by simp [HEAD_VERSIONS], fun buf pos hv => ?_,
    fun buf pos ft hok => ?_, fun buf pos hv => ⟨fun hm => ?_, fun hm hc => ?_⟩,
    fun sha isUtf8 input hlen hv => ?_, fun sha h bytes hw => ?_, by decide⟩
  · simp only [parseBlock0]
    rw [if_pos hv]
  · by_cases hv : readHeadVersion ((buf.drop 8).take 8) ∉ HEAD_VERSIONS
    · simp only [parseBlock0] at hok
      rw [if_pos hv] at hok
      exact absurd hok (by simp)
    · push_neg at hv
      refine ⟨hv, ?_⟩
      simp only [parseBlock0] at hok
      rw [if_neg (by simpa using hv)] at hok
      by_cases hss : buf.take 8 = HEAD_SNAPSHOT.take 8
      · rw [if_pos hss] at hok
        cases hok
        exact Or.inl rfl
      · rw [if_neg hss] at hok
        by_cases hcl : buf.take 8 = HEAD_COMMITLOG.take 8
        · rw [if_pos hcl] at hok
          cases hok
          exact Or.inr rfl
        · rw [if_neg hcl] at hok
          exact absurd hok (by simp)
  · simp only [parseBlock0]
    rw [if_neg (by simpa using hv), if_pos hm]
  · simp only [parseBlock0]
    rw [if_neg (by simpa using hv), if_neg hm, if_pos hc]
  · have hfill : fill 16 0 input = .ok (input.take 16, input.drop 16) := by
      simp [fill, hlen]
    have hvb : readHeadVersion (((input.take 16).drop 8).take 8) ∉ HEAD_VERSIONS := by
      rw [List.drop_take]
      simpa [List.take_take] using hv
    have hblk : parseBlock0 (input.take 16) 0 =
        .err (.readErr "Pippin file of unknown version" 0 (0, 16)) := by
      simp only [parseBlock0]
      rw [if_pos hvb]
    simp [readHead, parseHead, hfill, hblk]
  · rcases writeHead_ok_shape sha h bytes hw with ⟨rest, hsh | hcl⟩
    · exact Or.inl (by rw [hsh]; exact List.take_left' (by decide))
    · exact Or.inr (by rw [hcl]; exact List.take_left' (by decide))

/-- Witness for C3: a version field of eight zero digits is rejected, and
the newest snapshot magic block is accepted with version 20160201. -/
theorem head_versions_accepted_and_emitted_witness :
    parseBlock0 [80, 73, 80, 80, 73, 78, 83, 83, 48, 48, 48, 48, 48, 48, 48, 48] 0 =
      .err (.readErr "Pippin file of unknown version" 0 (0, 16)) ∧
    parseBlock0 HEAD_SNAPSHOT 0 = .ok (.snapshot 20160201) := by
  constructor
  · exact head_versions_accepted_and_emitted.2.1 _ 0 (by decide)
  · have h := (head_versions_accepted_and_emitted.2.2.2.1 HEAD_SNAPSHOT 0
      (by decide)).1 (by decide)
    have hv : readHeadVersion ((HEAD_SNAPSHOT.drop 8).take 8) = 20160201 := by
      decide
    rw [hv] at h
    exact h

/-- C1 (failing part): `write_head` accepts `longRemarkHeader`, but reading
the bytes it produced back fails.  The remark is written as a Q-section
declared to span 2 blocks (32 bytes) while 36 bytes are emitted (the
padding is computed as `n*16 - len + 2` instead of `n*16 - len - 2`), so
the reader goes out of step and rejects the stream at offset 64.  This
holds for every digest function; it is stated at `shaZ` because the
failure occurs before the checksum is reached. -/
theorem write_head_read_head_no_round_trip :
    writeHead shaZ longRemarkHeader = .ok longRemarkBytes ∧
    readHead shaZ utf8All longRemarkBytes =
      .err (.readErr "unexpected header contents" 64 (0, 1)) := by
  decide

/-- Lookup of a member state by its own key succeeds when keys are
duplicate-free. -/
theorem statesFind_eq_of_mem (states : List PState) (s : PState)
    (hmem : s ∈ states) (hnd : (states.map (fun t => t.statesum)).Nodup) :
    statesFind states s.statesum = some s := by
  induction states with
  | nil => simp at hmem
  | cons t ts ih =>
    simp only [List.map_cons, List.nodup_cons] at hnd
    rcases List.mem_cons.mp hmem with heq | hmem'
    · subst heq
      simp [statesFind, List.find?_cons]
    · have hne : ¬ t.statesum = s.statesum := by
        intro he
        exact hnd.1 (he ▸ List.mem_map_of_mem (fun u => u.statesum) hmem')
      have := ih hmem' hnd.2
      simpa [statesFind, List.find?_cons, hne] using this

/-- C2: `tip()` returns the unique tip state when the tip set has exactly
one element (given the maintained well-formedness that states are keyed
without duplicates), `Err(NotReady)` when it is empty, `Err(MergeRequired)`
when it has more than one element, and is only `Ok` in the singleton case. -/
theorem tip_ok_iff_single_tip (p : Part) :
    (∀ s, s ∈ p.states → p.tips = [s.statesum] →
      (keySet p).Nodup → tip p = .ok (some s)) ∧
    (p.tips = [] → tip p = .err .notReady) ∧
    (2 ≤ p.tips.length → tip p = .err .mergeRequired) ∧
    (∀ x, tip p = .ok x → p.tips.length = 1) := by
  refine ⟨fun s hs htips hnd => ?_, fun htips => ?_, fun hlen => ?_,
    fun x hok => ?_⟩
  · have hlen : p.tips.length = 1 := by simp [htips]
    have hfind := statesFind_eq_of_mem p.states s hs hnd
    simp [tip, tipKey, hlen, htips, hfind]
  · simp [tip, tipKey, htips]
  · have h1 : ¬ p.tips.length = 1 := by omega
    have h2 : ¬ p.tips.isEmpty = true := by
      rw [List.isEmpty_iff_length_eq_zero]
      omega
    simp [tip, tipKey, h1, h2]
  · by_cases h1 : p.tips.length = 1
    · exact h1
    · by_cases h2 : p.tips.isEmpty
      · simp [tip, tipKey, h1, h2] at hok
      · simp [tip, tipKey, h1, h2] at hok

/-- Witness for C2 at a concrete partition with one tip. -/
theorem tip_ok_iff_single_tip_witness :
    tip ⟨[⟨4, [], 0⟩], [], [4], []⟩ = .ok (some ⟨4, [], 0⟩) :=
  (tip_ok_iff_single_tip ⟨[⟨4, [], 0⟩], [], [4], []⟩).1 ⟨4, [], 0⟩
    (by simp) (by simp) (by simp [keySet])

/-- C6: the tip pair picked by a `merge` iteration consists of the two
smallest tip sums, and the choice is invariant under the iteration order
of the tip set (any permutation of the tip list), so a fixed tip set and a
deterministic solver give a deterministic merge pair. -/
theorem merge_picks_two_smallest_tips (l l' : List Nat) (hnd : l.Nodup)
    (hlen : 2 ≤ l.length) (hperm : List.Perm l' l) :
    mergePickPair l' = mergePickPair l ∧
    (mergePickPair l).1 ∈ l ∧ (mergePickPair l).2 ∈ l ∧
    (mergePickPair l).1 ≠ (mergePickPair l).2 ∧
    (∀ x ∈ l, (mergePickPair l).1 ≤ x) ∧
    (∀ x ∈ l, x ≠ (mergePickPair l).1 → (mergePickPair l).2 ≤ x) := by
  have hperm1 : List.Perm (l.insertionSort (fun a b => a ≤ b)) l :=
    List.perm_insertionSort _ l
  have hsort1 : List.Sorted (fun a b : Nat => a ≤ b)
      (l.insertionSort (fun a b => a ≤ b)) := List.sorted_insertionSort _ l
  have heqsort : l'.insertionSort (fun a b => a ≤ b) =
      l.insertionSort (fun a b => a ≤ b) := by
    refine List.eq_of_perm_of_sorted ?_ (List.sorted_insertionSort _ l') hsort1
    exact (List.perm_insertionSort _ l').trans (hperm.trans hperm1.symm)
  have hdet : mergePickPair l' = mergePickPair l := by
    simp [mergePickPair, heqsort]
  have hlen2 : 2 ≤ (l.insertionSort (fun a b => a ≤ b)).length := by
    rw [hperm1.length_eq]
    exact hlen
  obtain ⟨a, b, rest, hs⟩ : ∃ a b rest,
      l.insertionSort (fun a b => a ≤ b) = a :: b :: rest := by
    cases h1 : l.insertionSort (fun a b => a ≤ b) with
    | nil => rw [h1] at hlen2; simp at hlen2
    | cons a t =>
      cases t with
      | nil => rw [h1] at hlen2; simp at hlen2
      | cons b rest => exact ⟨a, b, rest, rfl⟩
  have hpick : mergePickPair l = (a, b) := by
    simp [mergePickPair, hs]
  have hmem : ∀ x ∈ l, x ∈ a :: b :: rest := fun x hx =>
    hs ▸ hperm1.symm.subset hx
  have hmem' : ∀ x ∈ a :: b :: rest, x ∈ l := fun x hx =>
    hperm1.subset (hs ▸ hx)
  rw [hs] at hsort1
  have hrel := List.sorted_cons.mp hsort1
  have hrelb := List.sorted_cons.mp hrel.2
  have hnds : (a :: b :: rest).Nodup := hs ▸ (hperm1.nodup_iff.mpr hnd)
  refine ⟨hdet, ?_, ?_, ?_, ?_, ?_⟩
  · exact hpick ▸ hmem' a (by simp)
  · exact hpick ▸ hmem' b (by simp)
  · rw [hpick]
    intro hab
    have hab' : a = b := hab
    apply (List.nodup_cons.mp hnds).1
    rw [hab']
    exact List.mem_cons_self b rest
  · intro x hx
    rw [hpick]
    rcases List.mem_cons.mp (hmem x hx) with h | h
    · exact h ▸ le_refl a
    · exact hrel.1 x h
  · intro x hx hxa
    rw [hpick]
    rw [hpick] at hxa
    rcases List.mem_cons.mp (hmem x hx) with h | h
    · exact absurd h hxa
    · rcases List.mem_cons.mp h with h2 | h2
      · exact h2 ▸ le_refl b
      · exact hrelb.1 x h2

/-- Witness for C6 at a concrete tip set given in two iteration orders. -/
theorem merge_picks_two_smallest_tips_witness :
    mergePickPair [9, 5, 3] = mergePickPair [5, 3, 9] ∧
      mergePickPair [5, 3, 9] = (3, 5) :=
  ⟨(merge_picks_two_smallest_tips [5, 3, 9] [9, 5, 3] (by decide) (by decide)
      (by decide)).1, by decide⟩

/-- Skipping a block of missing snapshots in the descending scan of
`open`. -/
theorem openScan_skip_none (sha : List Nat → List Nat)
    (isUtf8 : List Nat → Bool) (l r : List (Option (List Nat)))
    (hl : ∀ f ∈ l, f = none) :
    openScan sha isUtf8 (l ++ r) = openScan sha isUtf8 r := by
  induction l with
  | nil => rfl
  | cons f fs ih =>
    have hf : f = none := hl f (by simp)
    subst hf
    simpa [openScan] using ih (fun g hg => hl g (by simp [hg]))

/-- C8 (amended): `open` scans snapshot numbers in descending order and
skips numbers whose file is absent; the result is decided entirely by the
highest-numbered present snapshot: its header is read, a read error
propagates (the snapshot is not skipped), and a successful read
initialises the partition.  When every snapshot is absent, `open` fails. -/
theorem open_uses_highest_present_snapshot (sha : List Nat → List Nat)
    (isUtf8 : List Nat → Bool) (files : List (Option (List Nat))) :
    ((∀ f ∈ files, f = none) → openPart sha isUtf8 files =
      .err (.otherErr "no snapshot found for first partition")) ∧
    (∀ pre bytes post, files = pre ++ some bytes :: post →
      (∀ f ∈ post, f = none) →
      openPart sha isUtf8 files =
        match readHead sha isUtf8 bytes with
        | .err e => .err e
        | .ok h => .ok h.name) := by
  constructor
  · intro hall
    have : ∀ f ∈ files.reverse, f = none := by
      intro f hf
      exact hall f (List.mem_reverse.mp hf)
    rw [openPart, ← List.append_nil files.reverse,
      openScan_skip_none sha isUtf8 files.reverse [] this]
    rfl
  · intro pre bytes post hsplit hpost
    rw [openPart, hsplit]
    have : (pre ++ some bytes :: post).reverse =
        post.reverse ++ some bytes :: pre.reverse := by
      simp
    rw [this, openScan_skip_none sha isUtf8 post.reverse _
      (fun f hf => hpost f (List.mem_reverse.mp hf))]
    rfl

/-- C8 (counterexample): with a valid snapshot 0 and a corrupt snapshot 1,
`open` fails with the parse error of snapshot 1 instead of skipping it and
using snapshot 0 (which the claimed behaviour, `openClaimed`, does). -/
theorem open_does_not_skip_parse_failures :
    openPart shaZ utf8All [some minHeaderBytes, some [9]] =
      .err (.readErr "corrupt (file terminates unexpectedly)" 0 (0, 0)) ∧
    openClaimed shaZ utf8All [some minHeaderBytes, some [9]] = .ok [110] := by
  decide

/-- Witness for C8 (amended) at a concrete file list: the one present
snapshot decides the result. -/
theorem open_uses_highest_present_snapshot_witness :
    openPart shaZ utf8All [none, some minHeaderBytes, none] = .ok [110] := by
  have h := (open_uses_highest_present_snapshot shaZ utf8All
    [none, some minHeaderBytes, none]).2 [none] minHeaderBytes [none]
    rfl (by simp)
  rw [h]
  decide

/-- Successful `fill` returns the prefix and suffix of the input. -/
theorem fill_ok (n pos : Nat) (input buf rest : List Nat)
    (h : fill n pos input = .ok (buf, rest)) :
    n ≤ input.length ∧ buf = input.take n ∧ rest = input.drop n := by
  by_cases hn : n ≤ input.length
  · simp only [fill, if_pos hn, Res.ok.injEq, Prod.mk.injEq] at h
    exact ⟨hn, h.1.symm, h.2.symm⟩
  · simp [fill, if_neg hn] at h

set_option maxHeartbeats 1000000

/-- One block-loop iteration only consumes a prefix, provided its
continuation does: on success the reported consumed count grows by the
length of that prefix and the returned stream is the matching suffix. -/
theorem parseBlocksStep_consumes (isUtf8 : List Nat → Bool)
    (go : List Nat → Nat → Nat → FileHeaderM →
      Res (FileHeaderM × Nat × Nat × List Nat))
    (hgo : ∀ (input : List Nat) (pos consumed : Nat) (h : FileHeaderM)
      (out : FileHeaderM × Nat × Nat × List Nat),
      go input pos consumed h = .ok out →
      ∃ k, k ≤ input.length ∧ out.2.2.1 = consumed + k ∧
        out.2.2.2 = input.drop k) :
    ∀ (input : List Nat) (pos consumed : Nat) (h : FileHeaderM)
      (out : FileHeaderM × Nat × Nat × List Nat),
      parseBlocksStep isUtf8 go input pos consumed h = .ok out →
      ∃ k, k ≤ input.length ∧ out.2.2.1 = consumed + k ∧
        out.2.2.2 = input.drop k := by
  intro input pos consumed h out hok
  simp only [parseBlocksStep] at hok
  cases hfill : fill 16 pos input with
    | err e => rw [hfill] at hok; exact absurd hok (by simp)
    | ok pr =>
      obtain ⟨buf, rest⟩ := pr
      rw [hfill] at hok
      obtain ⟨hlen16, hbuf, hrest⟩ := fill_ok 16 pos input buf rest hfill
      simp only at hok
      by_cases hH : buf.headD 0 = 72
      · rw [if_pos hH] at hok
        cases hd : dispatchBlock isUtf8 ((buf.drop 1).take 15) 1 (pos + 1) h with
        | err e => rw [hd] at hok; exact absurd hok (by simp)
        | ok o =>
          rw [hd] at hok
          cases o with
          | none =>
            simp only [Res.ok.injEq] at hok
            refine ⟨16, hlen16, ?_, ?_⟩
            · rw [← hok]
            · rw [← hok]
              simpa using hrest
          | some h2 =>
            obtain ⟨k, hk, hcon, hrem⟩ := hgo rest _ _ h2 out hok
            refine ⟨16 + k, ?_, ?_, ?_⟩
            · have : rest.length = input.length - 16 := by
                rw [hrest]; simp
              omega
            · omega
            · rw [hrem, hrest, List.drop_drop]
      · rw [if_neg hH] at hok
        by_cases hQ : buf.headD 0 = 81
        · rw [if_pos hQ] at hok
          set c1 := (buf.drop 1).headD 0 with hc1
          by_cases hx : (49 ≤ c1 ∧ c1 ≤ 57) ∨ (65 ≤ c1 ∧ c1 ≤ 90)
          · rw [if_pos hx] at hok
            set x := if 49 ≤ c1 ∧ c1 ≤ 57 then c1 - 48 else c1 + 10 - 65 with hxdef
            have hx1 : 1 ≤ x := by
              rcases hx with h1 | h1
              · rw [hxdef, if_pos h1]; omega
              · rcases Nat.lt_or_ge c1 49 with h2 | h2
                · rw [hxdef, if_neg (by omega)]; omega
                · rcases le_or_lt c1 57 with h3 | h3
                  · rw [hxdef, if_pos ⟨h2, h3⟩]; omega
                  · rw [hxdef, if_neg (by omega)]; omega
            cases hfill2 : fill (x * 16 - 16) pos rest with
            | err e => rw [hfill2] at hok; exact absurd hok (by simp)
            | ok pr2 =>
              obtain ⟨ext, rest2⟩ := pr2
              rw [hfill2] at hok
              obtain ⟨hlenx, hext, hrest2⟩ := fill_ok _ pos rest ext rest2 hfill2
              have hrlen : rest.length = input.length - 16 := by
                rw [hrest]; simp
              have hxlen : x * 16 ≤ input.length := by omega
              have hrest2' : rest2 = input.drop (x * 16) := by
                rw [hrest2, hrest, List.drop_drop]
                congr 1
                omega
              simp only at hok
              cases hd : dispatchBlock isUtf8 (((buf ++ ext).drop 2).take (x * 16 - 2))
                  2 (pos + 2) h with
              | err e => rw [hd] at hok; exact absurd hok (by simp)
              | ok o =>
                rw [hd] at hok
                cases o with
                | none =>
                  simp only [Res.ok.injEq] at hok
                  refine ⟨x * 16, hxlen, ?_, ?_⟩
                  · rw [← hok]
                  · rw [← hok]
                    simpa using hrest2'
                | some h2 =>
                  obtain ⟨k, hk, hcon, hrem⟩ := hgo rest2 _ _ h2 out hok
                  refine ⟨x * 16 + k, ?_, ?_, ?_⟩
                  · have : rest2.length = input.length - x * 16 := by
                      rw [hrest2']; simp
                    omega
                  · omega
                  · rw [hrem, hrest2', List.drop_drop]
          · rw [if_neg hx] at hok
            exact absurd hok (by simp)
        · rw [if_neg hQ] at hok
          exact absurd hok (by simp)

/-- The block loop only consumes a prefix of the input, whatever the
fuel. -/
theorem parseBlocks_consumes (isUtf8 : List Nat → Bool) :
    ∀ (fuel : Nat) (input : List Nat) (pos consumed : Nat) (h : FileHeaderM)
      (out : FileHeaderM × Nat × Nat × List Nat),
      parseBlocks isUtf8 fuel input pos consumed h = .ok out →
      ∃ k, k ≤ input.length ∧ out.2.2.1 = consumed + k ∧
        out.2.2.2 = input.drop k := by
  intro fuel
  induction fuel with
  | zero =>
    intro input pos consumed h out hok
    simp [parseBlocks] at hok
  | succ fuel ih =>
    intro input pos consumed h out hok
    simp only [parseBlocks] at hok
    exact parseBlocksStep_consumes isUtf8 (parseBlocks isUtf8 fuel) ih
      input pos consumed h out hok

/-- The parse phase of `read_head` consumes a prefix of the input: the
returned stream is the suffix after the reported consumed count. -/
theorem parseHead_consumes (isUtf8 : List Nat → Bool) (input : List Nat)
    (h : FileHeaderM) (pos consumed : Nat) (rest : List Nat)
    (hok : parseHead isUtf8 input = .ok (h, pos, consumed, rest)) :
    consumed ≤ input.length ∧ rest = input.drop consumed := by
  simp only [parseHead] at hok
  cases hfill : fill 16 0 input with
  | err e => rw [hfill] at hok; exact absurd hok (by simp)
  | ok pr =>
    obtain ⟨buf0, rest0⟩ := pr
    rw [hfill] at hok
    obtain ⟨hlen0, hbuf0, hrest0⟩ := fill_ok 16 0 input buf0 rest0 hfill
    simp only at hok
    cases hb0 : parseBlock0 buf0 0 with
    | err e => rw [hb0] at hok; exact absurd hok (by simp)
    | ok ftype =>
      rw [hb0] at hok
      simp only at hok
      cases hfill1 : fill 16 16 rest0 with
      | err e => rw [hfill1] at hok; exact absurd hok (by simp)
      | ok pr1 =>
        obtain ⟨buf1, rest1⟩ := pr1
        rw [hfill1] at hok
        obtain ⟨hlen1, hbuf1, hrest1⟩ := fill_ok 16 16 rest0 buf1 rest1 hfill1
        simp only at hok
        by_cases hu : isUtf8 (rtrim buf1 0) = true
        · rw [if_pos hu] at hok
          obtain ⟨k, hk, hcon, hrem⟩ := parseBlocks_consumes isUtf8 _ rest1 32 32 _
            (h, pos, consumed, rest) hok
          simp only at hcon hrem
          have hrest1' : rest1 = input.drop 32 := by
            rw [hrest1, hrest0, List.drop_drop]
          have hr0len : rest0.length = input.length - 16 := by
            rw [hrest0]; simp
          have hr1len : rest1.length = input.length - 32 := by
            rw [hrest1']; simp
          constructor
          · omega
          · rw [hrem, hrest1', List.drop_drop]
            congr 1
            omega
        · rw [if_neg hu] at hok
          exact absurd hok (by simp)

/-- C4: `read_head` verifies the trailing 32 bytes.  It returns a header
only when the 32 bytes following the consumed header blocks equal the
digest of every preceding byte; when the header blocks parse but those 32
bytes differ from the digest in any byte, it fails with the ReadError
"header checksum invalid" carrying the byte offset. -/
theorem read_head_rejects_checksum_mismatch (sha : List Nat → List Nat)
    (isUtf8 : List Nat → Bool) :
    (∀ input h, readHead sha isUtf8 input = .ok h →
      ∃ pre c rfin, input = pre ++ c ++ rfin ∧ c.length = 32 ∧ c = sha pre) ∧
    (∀ input h pos consumed rest,
      parseHead isUtf8 input = .ok (h, pos, consumed, rest) →
      32 ≤ rest.length → rest.take 32 ≠ sha (input.take consumed) →
      readHead sha isUtf8 input =
        .err (.readErr "header checksum invalid" pos (0, 32))) := by
  constructor
  · intro input h hok
    simp only [readHead] at hok
    cases hp : parseHead isUtf8 input with
    | err e => rw [hp] at hok; exact absurd hok (by simp)
    | ok out =>
      obtain ⟨h2, pos, consumed, rest⟩ := out
      rw [hp] at hok
      simp only at hok
      cases hf : fill 32 pos rest with
      | err e => rw [hf] at hok; exact absurd hok (by simp)
      | ok pr =>
        obtain ⟨c, rfin⟩ := pr
        rw [hf] at hok
        obtain ⟨hlen32, hc, hrfin⟩ := fill_ok 32 pos rest c rfin hf
        simp only at hok
        obtain ⟨hcons, hrest⟩ := parseHead_consumes isUtf8 input h2 pos consumed
          rest hp
        by_cases hsum : c = sha (input.take consumed)
        · refine ⟨input.take consumed, c, rfin, ?_, ?_, hsum⟩
          · rw [List.append_assoc, hc, hrfin, List.take_append_drop, hrest,
              List.take_append_drop]
          · rw [hc, List.length_take]
            omega
        · rw [if_neg hsum] at hok
          exact absurd hok (by simp)
  · intro input h pos consumed rest hp hlen hne
    have hf : fill 32 pos rest = .ok (rest.take 32, rest.drop 32) := by
      simp [fill, hlen]
    simp only [readHead, hp, hf]
    rw [if_neg hne]

/-- Witness for C4: the minimal header with its trailing digest replaced by
32 bytes of 7 is rejected with "header checksum invalid". -/
theorem read_head_rejects_checksum_mismatch_witness :
    readHead shaZ utf8All (minHeaderBytes.take 48 ++ List.replicate 32 7) =
      .err (.readErr "header checksum invalid" 33 (0, 32)) := by
  refine (read_head_rejects_checksum_mismatch shaZ utf8All).2
    (minHeaderBytes.take 48 ++ List.replicate 32 7)
    { ftype := .snapshot 20160201, name := [110], part_id := none,
      remarks := [], user_fields := [] } 33 48 (List.replicate 32 7)
    (by decide) (by decide) (by decide)

/-- Membership in `setInsert`. -/
theorem mem_setInsert (x q : Nat) (l : List Nat) :
    x ∈ setInsert q l ↔ x = q ∨ x ∈ l := by
  unfold setInsert
  by_cases h : q ∈ l
  · rw [if_pos h]
    constructor
    · exact Or.inr
    · rintro (rfl | hx)
      · exact h
      · exact hx
  · rw [if_neg h]
    simp

/-- Membership after removing every listed parent from the tip set. -/
theorem mem_foldl_filter (l : List Nat) (t : List Nat) (x : Nat) :
    x ∈ l.foldl (fun t q => t.filter (fun y => y ≠ q)) t ↔
      x ∈ t ∧ x ∉ l := by
  induction l generalizing t with
  | nil => simp
  | cons q qs ih =>
    rw [List.foldl_cons, ih]
    simp only [List.mem_filter, List.mem_cons, decide_eq_true_eq, ne_eq]
    constructor
    · rintro ⟨⟨hx, hne⟩, hqs⟩
      refine ⟨hx, ?_⟩
      rintro (rfl | hmem)
      · exact hne rfl
      · exact hqs hmem
    · rintro ⟨hx, hnot⟩
      exact ⟨⟨hx, fun he => hnot (Or.inl he)⟩,
        fun hmem => hnot (Or.inr hmem)⟩

/-- Membership after inserting every listed parent missing from the state
index into the ancestor set. -/
theorem mem_foldl_anc (l ks a : List Nat) (x : Nat) :
    x ∈ l.foldl (fun a q => if q ∈ ks then a else setInsert q a) a ↔
      x ∈ a ∨ (x ∈ l ∧ x ∉ ks) := by
  induction l generalizing a with
  | nil => simp
  | cons q qs ih =>
    simp only [List.foldl_cons, ih, List.mem_cons]
    by_cases hq : q ∈ ks
    · rw [if_pos hq]
      constructor
      · rintro (hx | hx)
        · exact Or.inl hx
        · exact Or.inr ⟨Or.inr hx.1, hx.2⟩
      · rintro (hx | ⟨rfl | hmem, hks⟩)
        · exact Or.inl hx
        · exact absurd hq hks
        · exact Or.inr ⟨hmem, hks⟩
    · rw [if_neg hq]
      simp only [mem_setInsert]
      constructor
      · rintro ((rfl | hx) | hx)
        · exact Or.inr ⟨Or.inl rfl, hq⟩
        · exact Or.inl hx
        · exact Or.inr ⟨Or.inr hx.1, hx.2⟩
      · rintro (hx | ⟨rfl | hmem, hks⟩)
        · exact Or.inl (Or.inr hx)
        · exact Or.inl (Or.inl rfl)
        · exact Or.inr ⟨hmem, hks⟩

/-- `add_state` preserves the invariant. -/
theorem addState_preserves_inv (p : Part) (s : PState) (hinv : PartInv p) :
    PartInv (addState p s) := by
  obtain ⟨hta, hpc, htk⟩ := hinv
  by_cases hmem : s.statesum ∈ keySet p
  · rw [addState, if_pos hmem]
    exact ⟨hta, hpc, htk⟩
  · rw [addState, if_neg hmem]
    simp only
    set tips1 := s.parents.foldl (fun t q => t.filter (fun y => y ≠ q)) p.tips
      with htips1
    set anc1 := s.parents.foldl
      (fun a q => if q ∈ keySet p then a else setInsert q a) p.ancestors
      with hanc1
    have hanc1mem : ∀ x, x ∈ anc1 ↔
        x ∈ p.ancestors ∨ (x ∈ s.parents ∧ x ∉ keySet p) := fun x =>
      mem_foldl_anc s.parents (keySet p) p.ancestors x
    have htips1mem : ∀ x, x ∈ tips1 ↔ x ∈ p.tips ∧ x ∉ s.parents := fun x =>
      mem_foldl_filter s.parents p.tips x
    have hkeys : keySet { p with
          states := s :: p.states,
          ancestors := anc1,
          tips := (if s.statesum ∈ anc1 then tips1 else setInsert s.statesum tips1) } =
        s.statesum :: keySet p := by
      simp [keySet]
    refine ⟨?_, ?_, ?_⟩
    · intro x hx hxanc
      simp only at hx hxanc
      by_cases hcase : s.statesum ∈ anc1
      · rw [if_pos hcase] at hx
        obtain ⟨hxt, hxp⟩ := (htips1mem x).mp hx
        rcases (hanc1mem x).mp hxanc with h | h
        · exact hta x hxt h
        · exact hxp h.1
      · rw [if_neg hcase] at hx
        rcases (mem_setInsert x s.statesum tips1).mp hx with rfl | hx1
        · exact hcase hxanc
        · obtain ⟨hxt, hxp⟩ := (htips1mem x).mp hx1
          rcases (hanc1mem x).mp hxanc with h | h
          · exact hta x hxt h
          · exact hxp h.1
    · intro t ht q hq
      rw [hkeys]
      simp only at ht
      rcases List.mem_cons.mp ht with rfl | ht'
      · by_cases hqk : q ∈ keySet p
        · exact Or.inl (List.mem_cons_of_mem _ hqk)
        · exact Or.inr ((hanc1mem q).mpr (Or.inr ⟨hq, hqk⟩))
      · rcases hpc t ht' q hq with h | h
        · exact Or.inl (List.mem_cons_of_mem _ h)
        · exact Or.inr ((hanc1mem q).mpr (Or.inl h))
    · intro x hx
      rw [hkeys]
      simp only at hx
      by_cases hcase : s.statesum ∈ anc1
      · rw [if_pos hcase] at hx
        exact List.mem_cons_of_mem _ (htk x ((htips1mem x).mp hx).1)
      · rw [if_neg hcase] at hx
        rcases (mem_setInsert x s.statesum tips1).mp hx with rfl | hx1
        · exact List.mem_cons_self _ _
        · exact List.mem_cons_of_mem _ (htk x ((htips1mem x).mp hx1).1)

/-- The snapshot-insertion step of `load_range` preserves the invariant,
for states that are not their own parent (states form a DAG: a statesum
depends on its parent sums). -/
theorem loadInsert_preserves_inv (p : Part) (s : PState) (hinv : PartInv p)
    (hself : s.statesum ∉ s.parents) : PartInv (loadInsert p s) := by
  obtain ⟨hta, hpc, htk⟩ := hinv
  rw [loadInsert]
  set anc1 := s.parents.foldl
    (fun a q => if q ∈ keySet p then a else setInsert q a) p.ancestors
    with hanc1
  have hanc1mem : ∀ x, x ∈ anc1 ↔
      x ∈ p.ancestors ∨ (x ∈ s.parents ∧ x ∉ keySet p) := fun x =>
    mem_foldl_anc s.parents (keySet p) p.ancestors x
  have hkeys : keySet { p with
      states := (if s.statesum ∈ keySet p then p.states else s :: p.states),
      ancestors := anc1,
      tips := (if s.statesum ∈ p.ancestors then p.tips
        else setInsert s.statesum p.tips) } =
      (if s.statesum ∈ keySet p then keySet p else s.statesum :: keySet p) := by
    by_cases hk : s.statesum ∈ keySet p
    · rw [if_pos hk, if_pos hk]
      simp [keySet]
    · rw [if_neg hk, if_neg hk]
      simp [keySet]
  have hkeysup : ∀ x, x ∈ keySet p → x ∈ keySet { p with
      states := (if s.statesum ∈ keySet p then p.states else s :: p.states),
      ancestors := anc1,
      tips := (if s.statesum ∈ p.ancestors then p.tips
        else setInsert s.statesum p.tips) } := by
    intro x hx
    rw [hkeys]
    by_cases hk : s.statesum ∈ keySet p
    · rw [if_pos hk]; exact hx
    · rw [if_neg hk]; exact List.mem_cons_of_mem _ hx
  have hkeyss : s.statesum ∈ keySet { p with
      states := (if s.statesum ∈ keySet p then p.states else s :: p.states),
      ancestors := anc1,
      tips := (if s.statesum ∈ p.ancestors then p.tips
        else setInsert s.statesum p.tips) } := by
    rw [hkeys]
    by_cases hk : s.statesum ∈ keySet p
    · rw [if_pos hk]; exact hk
    · rw [if_neg hk]; exact List.mem_cons_self _ _
  refine ⟨?_, ?_, ?_⟩
  · intro x hx hxanc
    simp only at hx hxanc
    rcases (hanc1mem x).mp hxanc with h | h
    · by_cases hcase : s.statesum ∈ p.ancestors
      · rw [if_pos hcase] at hx
        exact hta x hx h
      · rw [if_neg hcase] at hx
        rcases (mem_setInsert x s.statesum p.tips).mp hx with rfl | hx1
        · exact hcase h
        · exact hta x hx1 h
    · by_cases hcase : s.statesum ∈ p.ancestors
      · rw [if_pos hcase] at hx
        exact h.2 (htk x hx)
      · rw [if_neg hcase] at hx
        rcases (mem_setInsert x s.statesum p.tips).mp hx with rfl | hx1
        · exact hself h.1
        · exact h.2 (htk x hx1)
  · intro t ht q hq
    simp only at ht
    by_cases hk : s.statesum ∈ keySet p
    · rw [if_pos hk] at ht
      rcases hpc t ht q hq with h | h
      · exact Or.inl (hkeysup q h)
      · exact Or.inr ((hanc1mem q).mpr (Or.inl h))
    · rw [if_neg hk] at ht
      rcases List.mem_cons.mp ht with rfl | ht'
      · by_cases hqk : q ∈ keySet p
        · exact Or.inl (hkeysup q hqk)
        · exact Or.inr ((hanc1mem q).mpr (Or.inr ⟨hq, hqk⟩))
      · rcases hpc t ht' q hq with h | h
        · exact Or.inl (hkeysup q h)
        · exact Or.inr ((hanc1mem q).mpr (Or.inl h))
  · intro x hx
    simp only at hx
    by_cases hcase : s.statesum ∈ p.ancestors
    · rw [if_pos hcase] at hx
      exact hkeysup x (htk x hx)
    · rw [if_neg hcase] at hx
      rcases (mem_setInsert x s.statesum p.tips).mp hx with rfl | hx1
      · exact hkeyss
      · exact hkeysup x (htk x hx1)

/-- C5: every operation that adds a state preserves (respectively
establishes) the invariant: the tip set and the ancestor set stay
disjoint, and every parent sum of every stored state stays in the state
index or the ancestor set.  `create` establishes it for the genesis state;
`add_state` preserves it outright; the snapshot insertion of `load_range`
preserves it for states that are not their own parent; and `add_pair`
(hence `push_state` and `push_commit`, which delegate to it) preserves it
for every metadata-mutation function and any number of collision-loop
iterations. -/
theorem add_operations_preserve_invariant :
    (∀ g pay, InvTipsAnc (createPart g pay) ∧
      InvParentClosure (createPart g pay) ∧ InvTipsKeys (createPart g pay)) ∧
    (∀ p s, PartInv p → InvTipsAnc (addState p s) ∧
      InvParentClosure (addState p s) ∧ InvTipsKeys (addState p s)) ∧
    (∀ p s, PartInv p → s.statesum ∉ s.parents →
      InvTipsAnc (loadInsert p s) ∧ InvParentClosure (loadInsert p s) ∧
      InvTipsKeys (loadInsert p s)) ∧
    (∀ mutate cs fuel p s, PartInv p →
      InvTipsAnc (addPair mutate cs fuel p s).1 ∧
      InvParentClosure (addPair mutate cs fuel p s).1 ∧
      InvTipsKeys (addPair mutate cs fuel p s).1) := by
  refine ⟨fun g pay => ?_, fun p s h => addState_preserves_inv p s h,
    fun p s h hself => loadInsert_preserves_inv p s h hself,
    fun mutate cs fuel => ?_⟩
  · refine ⟨?_, ?_, ?_⟩
    · intro x hx
      simp [createPart] at hx ⊢
    · intro t ht q hq
      simp [createPart] at ht
      subst ht
      simp at hq
    · intro x hx
      simp [createPart, keySet] at hx ⊢
      exact hx
  · induction fuel with
    | zero =>
      intro p s h
      exact h
    | succ fuel ih =>
      intro p s h
      rw [addPair]
      cases hf : statesFind p.states s.statesum with
      | some old =>
        simp only
        by_cases he : s = old
        · rw [if_pos he]
          exact h
        · rw [if_neg he]
          exact ih p (mutate s) h
      | none =>
        simp only
        have hadd := addState_preserves_inv p s h
        exact ⟨fun x hx => hadd.1 x hx, fun t ht q hq => hadd.2.1 t ht q hq,
          fun x hx => hadd.2.2 x hx⟩

/-- Witness for C5: the invariant holds after creating a partition and
adding a child state of the genesis. -/
theorem add_operations_preserve_invariant_witness :
    InvTipsAnc (addState (createPart 5 0) ⟨7, [5], 0⟩) ∧
      InvParentClosure (addState (createPart 5 0) ⟨7, [5], 0⟩) ∧
      InvTipsKeys (addState (createPart 5 0) ⟨7, [5], 0⟩) :=
  add_operations_preserve_invariant.2.1 (createPart 5 0) ⟨7, [5], 0⟩
    (add_operations_preserve_invariant.1 5 0)

/-- C7 (counterexample): the second phase of `latest_common_ancestor` is a
LIFO-stack (depth-first) search, not a breadth-first one.  On this graph
(1 has parents 3 and 5; 2 has parents 3 and 4; 4 has parent 5) the code
returns 5, while the breadth-first search described by the claim
(`lcaClaimed`) returns 3. -/
theorem lca_uses_stack_not_bfs :
    latestCommonAncestor [⟨1, [3, 5], 0⟩, ⟨2, [3, 4], 0⟩, ⟨4, [5], 0⟩] 1 2 =
      .ok 5 ∧
    lcaClaimed [⟨1, [3, 5], 0⟩, ⟨2, [3, 4], 0⟩, ⟨4, [5], 0⟩] 1 2 = .ok 3 := by
  decide

/-- The search phase returns exactly the first element of the visit order
that lies in the ancestor set. -/
theorem dfsFind_eq_find_visit (states : List PState) (a1 : List Nat) :
    ∀ (fuel : Nat) (stk vis : List Nat),
      dfsFind states a1 fuel stk vis =
        (dfsVisit states fuel stk vis).find? (fun k => decide (k ∈ a1)) := by
  intro fuel
  induction fuel with
  | zero => intro stk vis; simp [dfsFind, dfsVisit]
  | succ fuel ih =>
    intro stk vis
    cases stk with
    | nil => simp [dfsFind, dfsVisit]
    | cons k stk =>
      by_cases hk : k ∈ vis
      · simp only [dfsFind, dfsVisit, if_pos hk]
        exact ih stk vis
      · by_cases ha : k ∈ a1
        · simp [dfsFind, dfsVisit, hk, ha, List.find?_cons]
        · simp only [dfsFind, dfsVisit, if_neg hk, if_neg ha]
          rw [List.find?_cons]
          have hd : decide (k ∈ a1) = false := by simp [ha]
          rw [hd]
          exact ih _ _

/-- Membership in the collected set is membership in the initial visited
set or in the visit order. -/
theorem mem_dfsAll_iff (states : List PState) :
    ∀ (fuel : Nat) (stk vis : List Nat) (x : Nat),
      x ∈ dfsAll states fuel stk vis ↔
        x ∈ vis ∨ x ∈ dfsVisit states fuel stk vis := by
  intro fuel
  induction fuel with
  | zero => intro stk vis x; simp [dfsAll, dfsVisit]
  | succ fuel ih =>
    intro stk vis x
    cases stk with
    | nil => simp [dfsAll, dfsVisit]
    | cons k stk =>
      by_cases hk : k ∈ vis
      · simp only [dfsAll, dfsVisit, if_pos hk]
        exact ih stk vis x
      · simp only [dfsAll, dfsVisit, if_neg hk]
        rw [ih]
        simp only [List.mem_cons]
        constructor
        · rintro ((rfl | hx) | hx)
          · exact Or.inr (Or.inl rfl)
          · exact Or.inl hx
          · exact Or.inr (Or.inr hx)
        · rintro (hx | (rfl | hx))
          · exact Or.inl (Or.inr hx)
          · exact Or.inl (Or.inl rfl)
          · exact Or.inr hx

/-- Head decomposition of the unvisited weight. -/
theorem unvisitedWeight_cons_state (t : PState) (ts : List PState)
    (vis : List Nat) :
    unvisitedWeight (t :: ts) vis =
      (if t.statesum ∈ vis then 0 else 1 + t.parents.length) +
        unvisitedWeight ts vis := by
  by_cases h : t.statesum ∈ vis <;>
    simp [unvisitedWeight, List.filter_cons, h]

/-- The unvisited weight never grows when the visited set grows. -/
theorem unvisitedWeight_mono (states : List PState) (vis : List Nat)
    (k : Nat) :
    unvisitedWeight states (k :: vis) ≤ unvisitedWeight states vis := by
  induction states with
  | nil => simp [unvisitedWeight]
  | cons t ts ih =>
    rw [unvisitedWeight_cons_state, unvisitedWeight_cons_state]
    have hhead : (if t.statesum ∈ k :: vis then 0 else 1 + t.parents.length) ≤
        (if t.statesum ∈ vis then 0 else 1 + t.parents.length) := by
      by_cases h : t.statesum ∈ vis
      · rw [if_pos h, if_pos (List.mem_cons_of_mem _ h)]
      · by_cases h2 : t.statesum ∈ k :: vis
        · rw [if_pos h2, if_neg h]
          omega
        · rw [if_neg h2, if_neg h]
    omega

/-- Visiting a fresh sum removes at least the weight of its state from the
unvisited weight. -/
theorem unvisitedWeight_visit (states : List PState) (vis : List Nat)
    (k : Nat) (hk : k ∉ vis) :
    unvisitedWeight states (k :: vis) + foundWeight states k ≤
      unvisitedWeight states vis := by
  induction states with
  | nil => simp [unvisitedWeight, foundWeight, statesFind]
  | cons t ts ih =>
    rw [unvisitedWeight_cons_state, unvisitedWeight_cons_state]
    by_cases ht : t.statesum = k
    · have hfind : statesFind (t :: ts) k = some t := by
        simp [statesFind, List.find?_cons, ht]
      have h1 : t.statesum ∈ k :: vis := by simp [ht]
      have h2 : t.statesum ∉ vis := ht ▸ hk
      rw [if_pos h1, if_neg h2]
      simp only [foundWeight, hfind]
      have := unvisitedWeight_mono ts vis k
      omega
    · have hfind : statesFind (t :: ts) k = statesFind ts k := by
        simp [statesFind, List.find?_cons, ht]
      have hw : foundWeight (t :: ts) k = foundWeight ts k := by
        simp only [foundWeight, hfind]
      rw [hw]
      have hiff : t.statesum ∈ k :: vis ↔ t.statesum ∈ vis := by
        simp [List.mem_cons, ht]
      by_cases h : t.statesum ∈ vis
      · rw [if_pos (hiff.mpr h), if_pos h]
        omega
      · rw [if_neg (fun hc => h (hiff.mp hc)), if_neg h]
        omega

/-- Worklist correctness of the stack traversal, by induction on the fuel
with the measure `stack length + unvisited weight`: given enough fuel, the
visit order (i) covers the stack, (ii) is fresh with respect to the
initial visited set, (iii) only contains sums reachable from the stack,
and (iv) is closed under parent edges up to the initial visited set. -/
theorem dfsVisit_spec (states : List PState) :
    ∀ (fuel : Nat) (stk vis : List Nat),
      stk.length + unvisitedWeight states vis < fuel →
      (∀ k ∈ stk, k ∈ vis ∨ k ∈ dfsVisit states fuel stk vis) ∧
      (∀ x ∈ dfsVisit states fuel stk vis, x ∉ vis) ∧
      (∀ x ∈ dfsVisit states fuel stk vis, ∃ k ∈ stk, Reach states k x) ∧
      (∀ x ∈ dfsVisit states fuel stk vis, ∀ q ∈ parentsOf states x,
        q ∈ vis ∨ q ∈ dfsVisit states fuel stk vis) := by
  intro fuel
  induction fuel with
  | zero => intro stk vis h; omega
  | succ fuel ih =>
    intro stk vis hm
    cases stk with
    | nil => simp [dfsVisit]
    | cons k stk =>
      rw [List.length_cons] at hm
      by_cases hk : k ∈ vis
      · have heq : dfsVisit states (fuel + 1) (k :: stk) vis =
            dfsVisit states fuel stk vis := by
          simp [dfsVisit, hk]
        have hrec := ih stk vis (by omega)
        rw [heq]
        refine ⟨?_, hrec.2.1, ?_, hrec.2.2.2⟩
        · intro j hj
          rcases List.mem_cons.mp hj with rfl | hj'
          · exact Or.inl hk
          · exact hrec.1 j hj'
        · intro x hx
          obtain ⟨k', hk', hr⟩ := hrec.2.2.1 x hx
          exact ⟨k', List.mem_cons_of_mem _ hk', hr⟩
      · have heq : dfsVisit states (fuel + 1) (k :: stk) vis =
            k :: dfsVisit states fuel ((parentsOf states k).reverse ++ stk)
              (k :: vis) := by
          simp [dfsVisit, hk]
        have hmw := unvisitedWeight_visit states vis k hk
        have hplen : (parentsOf states k).length + 1 ≤ foundWeight states k ∨
            (parentsOf states k = [] ∧ foundWeight states k = 0) := by
          cases hf : statesFind states k with
          | some s =>
            refine Or.inl ?_
            simp only [parentsOf, foundWeight, hf]
            omega
          | none =>
            refine Or.inr ⟨?_, ?_⟩
            · simp [parentsOf, hf]
            · simp [foundWeight, hf]
        have hm2 : ((parentsOf states k).reverse ++ stk).length +
            unvisitedWeight states (k :: vis) < fuel := by
          rw [List.length_append, List.length_reverse]
          rcases hplen with h | ⟨h1, h2⟩
          · omega
          · rw [h1]
            simp only [List.length_nil]
            omega
        have hrec := ih ((parentsOf states k).reverse ++ stk) (k :: vis) hm2
        rw [heq]
        have hstep : ∀ q ∈ parentsOf states k,
            Relation.ReflTransGen (fun a b => b ∈ parentsOf states a) k q :=
          fun q hq => Relation.ReflTransGen.single hq
        refine ⟨?_, ?_, ?_, ?_⟩
        · intro j hj
          rcases List.mem_cons.mp hj with rfl | hj'
          · exact Or.inr (List.mem_cons_self _ _)
          · rcases hrec.1 j (List.mem_append_right _ hj') with hv | hv
            · rcases List.mem_cons.mp hv with rfl | hv'
              · exact Or.inr (List.mem_cons_self _ _)
              · exact Or.inl hv'
            · exact Or.inr (List.mem_cons_of_mem _ hv)
        · intro x hx
          rcases List.mem_cons.mp hx with rfl | hx'
          · exact hk
          · exact fun hv => hrec.2.1 x hx' (List.mem_cons_of_mem _ hv)
        · intro x hx
          rcases List.mem_cons.mp hx with rfl | hx'
          · exact ⟨x, List.mem_cons_self _ _, Relation.ReflTransGen.refl⟩
          · obtain ⟨k', hk', hr⟩ := hrec.2.2.1 x hx'
            rcases List.mem_append.mp hk' with hp | hs
            · refine ⟨k, List.mem_cons_self _ _, ?_⟩
              exact Relation.ReflTransGen.trans
                (hstep k' (List.mem_reverse.mp hp)) hr
            · exact ⟨k', List.mem_cons_of_mem _ hs, hr⟩
        · intro x hx q hq
          rcases List.mem_cons.mp hx with rfl | hx'
          · rcases hrec.1 q
                (List.mem_append_left _ (List.mem_reverse.mpr hq)) with hv | hv
            · rcases List.mem_cons.mp hv with rfl | hv'
              · exact Or.inr (List.mem_cons_self _ _)
              · exact Or.inl hv'
            · exact Or.inr (List.mem_cons_of_mem _ hv)
          · rcases hrec.2.2.2 x hx' q hq with hv | hv
            · rcases List.mem_cons.mp hv with rfl | hv'
              · exact Or.inr (List.mem_cons_self _ _)
              · exact Or.inl hv'
            · exact Or.inr (List.mem_cons_of_mem _ hv)

/-- With the canonical fuel, the visit order from a single start sum is
exactly the set of sums reachable through parent edges. -/
theorem dfsVisit_iff_reach (states : List PState) (k : Nat) :
    ∀ x, x ∈ dfsVisit states (dfsVisitFuel states) [k] [] ↔
      Reach states k x := by
  have hm : ([k] : List Nat).length + unvisitedWeight states [] <
      dfsVisitFuel states := by
    simp [dfsVisitFuel]
  have hs := dfsVisit_spec states (dfsVisitFuel states) [k] [] hm
  have hkmem : k ∈ dfsVisit states (dfsVisitFuel states) [k] [] := by
    rcases hs.1 k (by simp) with h | h
    · simp at h
    · exact h
  intro x
  constructor
  · intro hx
    obtain ⟨k', hk', hr⟩ := hs.2.2.1 x hx
    have : k' = k := by simpa using hk'
    exact this ▸ hr
  · intro hr
    induction hr with
    | refl => exact hkmem
    | tail hab hbc ih2 =>
      rcases hs.2.2.2 _ ih2 _ hbc with h | h
      · simp at h
      · exact h

/-- With the canonical fuel, the collected ancestor set of a sum is exactly
its reachable set. -/
theorem dfsAll_iff_reach (states : List PState) (k x : Nat) :
    x ∈ dfsAll states (dfsVisitFuel states) [k] [] ↔ Reach states k x := by
  rw [mem_dfsAll_iff]
  simp only [List.not_mem_nil, false_or]
  exact dfsVisit_iff_reach states k x

/-- C7 (amended): `latest_common_ancestor` first collects the set of all
ancestors of k1 (exactly the sums reachable from k1 through parent edges),
then searches from k2 with the same LIFO-stack (depth-first) discipline
and returns the first visited sum in that set; it returns a common
ancestor of k1 and k2 whenever it succeeds, and it returns
`Err(NoCommonAncestor)` exactly when k1 and k2 have no common ancestor. -/
theorem lca_collects_ancestors_then_stack_search (states : List PState)
    (k1 k2 : Nat) :
    (latestCommonAncestor states k1 k2 =
      match (dfsVisit states (dfsVisitFuel states) [k2] []).find?
          (fun k =>
            decide (k ∈ dfsAll states (dfsVisitFuel states) [k1] [])) with
      | some k => .ok k
      | none => .err .noCommonAncestor) ∧
    (∀ x, x ∈ dfsAll states (dfsVisitFuel states) [k1] [] ↔
      Reach states k1 x) ∧
    (∀ s, latestCommonAncestor states k1 k2 = .ok s →
      Reach states k1 s ∧ Reach states k2 s) ∧
    (latestCommonAncestor states k1 k2 = .err .noCommonAncestor ↔
      ¬ ∃ s, Reach states k1 s ∧ Reach states k2 s) := by
  have hfind := dfsFind_eq_find_visit states
    (dfsAll states (dfsVisitFuel states) [k1] [])
    (dfsVisitFuel states) [k2] []
  have hvis := dfsVisit_iff_reach states k2
  have ha1 := fun x => dfsAll_iff_reach states k1 x
  have hlca : latestCommonAncestor states k1 k2 =
      match (dfsVisit states (dfsVisitFuel states) [k2] []).find?
          (fun k =>
            decide (k ∈ dfsAll states (dfsVisitFuel states) [k1] [])) with
      | some k => .ok k
      | none => .err .noCommonAncestor := by
    rw [latestCommonAncestor, hfind]
  refine ⟨hlca, ha1, ?_, ?_⟩
  · intro s hok
    rw [hlca] at hok
    cases hf : (dfsVisit states (dfsVisitFuel states) [k2] []).find?
        (fun k =>
          decide (k ∈ dfsAll states (dfsVisitFuel states) [k1] [])) with
    | none => rw [hf] at hok; exact absurd hok (by simp)
    | some k =>
      rw [hf] at hok
      have hks : k = s := by
        simpa using hok
      subst hks
      have hmem := List.mem_of_find?_eq_some hf
      have hp := List.find?_some hf
      simp only [decide_eq_true_eq] at hp
      exact ⟨(ha1 k).mp hp, (hvis k).mp hmem⟩
  · rw [hlca]
    cases hf : (dfsVisit states (dfsVisitFuel states) [k2] []).find?
        (fun k =>
          decide (k ∈ dfsAll states (dfsVisitFuel states) [k1] [])) with
    | none =>
      simp only
      constructor
      · intro _
        rintro ⟨s, hs1, hs2⟩
        have hnone := List.find?_eq_none.mp hf s ((hvis s).mpr hs2)
        simp only [decide_eq_true_eq] at hnone
        exact hnone ((ha1 s).mpr hs1)
      · intro _
        trivial
    | some k =>
      simp only
      constructor
      · intro hc
        exact absurd hc (by simp)
      · intro hno
        exfalso
        have hmem := List.mem_of_find?_eq_some hf
        have hp := List.find?_some hf
        simp only [decide_eq_true_eq] at hp
        exact hno ⟨k, (ha1 k).mp hp, (hvis k).mp hmem⟩

/-- Witness for C7 (amended) on the counterexample graph: the returned sum
5 is reachable from both 1 and 2. -/
theorem lca_collects_ancestors_then_stack_search_witness :
    Reach [⟨1, [3, 5], 0⟩, ⟨2, [3, 4], 0⟩, ⟨4, [5], 0⟩] 1 5 ∧
      Reach [⟨1, [3, 5], 0⟩, ⟨2, [3, 4], 0⟩, ⟨4, [5], 0⟩] 2 5 :=
  (lca_collects_ancestors_then_stack_search
    [⟨1, [3, 5], 0⟩, ⟨2, [3, 4], 0⟩, ⟨4, [5], 0⟩] 1 2).2.2.1 5 (by decide)

end Pippin
